import Mathlib

/-!
Verification model of the go-tail library (shogo82148/go-tail).

The definitions below are a shallow embedding of the Go source:
bytes are `Nat` (the newline byte is 10), the buffered reader
`bufio.Reader` is modelled by `GoTail.Reader` over a source given as a
finite list of chunks (the successive results of `Read` on the underlying
reader) followed by a terminal error, and the repository's functions
(`tail.tail`, `Tail.newReader`, `Tail.open`, `tail.restrict`, the event
loop of `tail.runFile`, `Tail.wait`, `Tail.Close`) are translated into
executable Lean functions or small transition systems.
-/

namespace GoTail

/-- A byte.  The code treats bytes opaquely except for comparison with
the newline byte `10`. -/
abbrev Byte := Nat

/-- The newline byte, `'\n'`. -/
def NL : Byte := 10

/-- Errors that flow through the code: `io.EOF`, `io.ErrClosedPipe`,
`context.Canceled`, `os.ErrNotExist`-like, permission errors,
`bufio.ErrBufferFull`, and arbitrary other errors. -/
inductive IOErr where
  | eof
  | errClosedPipe
  | canceled
  | notFound
  | permissionDenied
  | errBufferFull
  | other (n : Nat)
  deriving DecidableEq, Repr

/-- Model of `bufio.Reader` (as used by the repository): a buffer of
capacity `cap` holding `buf` (the bytes `b.buf[b.r:b.w]`), a pending
sticky read error `err`, and the underlying source, modelled as the
list `src` of chunks that successive `Read` calls will return, followed
by the terminal error `fin` once `src` is exhausted. -/
structure Reader where
  cap : Nat
  buf : List Byte
  err : Option IOErr
  src : List (List Byte)
  fin : IOErr
  deriving DecidableEq, Repr

/-- `bufio.Reader.fill`: one successful `Read` from the source into the
free space of the buffer.  If the source is exhausted the terminal
error becomes the pending error; otherwise the head chunk is consumed
up to the free space, any remainder staying at the head of the source. -/
def Reader.fill (r : Reader) : Reader :=
  match r.src with
  | [] => { r with err := some r.fin }
  | c :: rest =>
    let space := r.cap - r.buf.length
    let taken := c.take space
    let rem := c.drop space
    { r with
        buf := r.buf ++ taken,
        src := if rem.isEmpty then rest else rem :: rest }

/-- Index of the first newline byte in a list, if any. -/
def nlIdx : List Byte → Option Nat
  | [] => none
  | b :: bs => if b = NL then some 0 else (nlIdx bs).map (· + 1)

/-- Total bytes remaining in the source. -/
def Reader.srcBytes (r : Reader) : Nat :=
  (r.src.map List.length).sum

/-- Termination measure for `readSliceF`. -/
def Reader.mu (r : Reader) : Nat :=
  2 * r.srcBytes + r.src.length + (if r.err = none then 1 else 0)

/-- `bufio.Reader.ReadSlice('\n')`, fuelled.  Searches the buffer for a
newline; otherwise returns the buffered bytes with the pending error
(clearing it, as `readErr` does); otherwise, if the buffer is full,
returns the whole buffer with `ErrBufferFull`; otherwise fills and
retries.  Returns `none` only on fuel exhaustion (shown impossible for
fuel above `Reader.mu`). -/
def readSliceF : Nat → Reader → Option (List Byte × Option IOErr × Reader)
  | 0, _ => none
  | fuel + 1, r =>
    match nlIdx r.buf with
    | some i => some (r.buf.take (i + 1), none, { r with buf := r.buf.drop (i + 1) })
    | none =>
      match r.err with
      | some e => some (r.buf, some e, { r with buf := [], err := none })
      | none =>
        if r.cap ≤ r.buf.length then
          some (r.buf, some IOErr.errBufferFull, { r with buf := [] })
        else
          readSliceF fuel r.fill

/-- Fuel that always suffices for `readSliceF`. -/
def rsFuel (r : Reader) : Nat := r.mu + 1

/-- A `Line` record: text plus timestamp (`time.Now()` is modelled by a
clock oracle supplying the timestamps of successive emissions). -/
structure Line where
  text : List Byte
  time : Nat
  deriving DecidableEq, Repr

/-- Configuration of a `Tail` handle that matters for line extraction:
the buffered reader's capacity and `Options.MaxBytesLine`
(`0` means unlimited). -/
structure TailCfg where
  cap : Nat
  maxBytesLine : Nat
  deriving DecidableEq, Repr

/-- Result of one run of `tail.tail`: the emitted lines, the final carry
buffer `t.buf`, the final reader state, and the returned error. -/
structure TailResult where
  lines : List Line
  carry : List Byte
  reader : Reader
  errOut : IOErr
  deriving DecidableEq, Repr

/-- Prepend an emitted line to a `TailResult`. -/
def TailResult.push (l : Line) (t : TailResult) : TailResult :=
  { t with lines := l :: t.lines }

/-- `tail.tail` (the line extractor loop), fuelled.  Each iteration is
one `ReadSlice('\n')`; the slice is appended to the carry buffer
`t.buf`; on `ErrBufferFull` with the carry buffer under
`MaxBytesLine` (or no limit) the loop just continues; on any other
error the loop returns it; otherwise the carry buffer is emitted as
one `Line` (timestamped by `clock k` for the `k`-th emission) and
reset.  `none` only on fuel exhaustion. -/
def tailF (cfg : TailCfg) (clock : Nat → Nat) :
    Nat → Reader → List Byte → Nat → Option TailResult
  | 0, _, _, _ => none
  | fuel + 1, r, buf, k =>
    match readSliceF (rsFuel r) r with
    | none => none
    | some (line, e, r1) =>
      let buf1 := buf ++ line
      if e = some IOErr.errBufferFull then
        if cfg.maxBytesLine = 0 ∨ buf1.length < cfg.maxBytesLine then
          tailF cfg clock fuel r1 buf1 k
        else
          (tailF cfg clock fuel r1 [] (k + 1)).map (TailResult.push ⟨buf1, clock k⟩)
      else
        match e with
        | some e1 => some ⟨[], buf1, r1, e1⟩
        | none =>
          (tailF cfg clock fuel r1 [] (k + 1)).map (TailResult.push ⟨buf1, clock k⟩)

/-- The initial reader over a chunked source. -/
def initReader (cap : Nat) (chunks : List (List Byte)) (fin : IOErr) : Reader :=
  ⟨cap, [], none, chunks, fin⟩

/-- Total bytes a reader may still deliver (buffered plus source). -/
def Reader.pool (r : Reader) : Nat := r.buf.length + r.srcBytes

/-- A complete run of `tail.tail` on a fresh reader over `chunks`, with
empty initial carry buffer; the fuel is sufficient (see
`tailF_isSome`). -/
def tailRun (cfg : TailCfg) (clock : Nat → Nat) (chunks : List (List Byte))
    (fin : IOErr) : Option TailResult :=
  tailF cfg clock ((initReader cfg.cap chunks fin).pool + 1)
    (initReader cfg.cap chunks fin) [] 0

/-- Concatenation of the `text` fields of a list of lines. -/
def concatTexts (ls : List Line) : List Byte :=
  (ls.map Line.text).flatten

/-- Well-formedness of a reader state: the pending error can only be the
terminal error of the source, and it is pending only once the source is
exhausted.  Holds for `initReader` and is preserved by every operation. -/
def Reader.Wf (r : Reader) : Prop :=
  (r.err = none ∨ r.err = some r.fin) ∧ (r.err ≠ none → r.src = [])

theorem initReader_wf (cap : Nat) (chunks : List (List Byte)) (fin : IOErr) :
    (initReader cap chunks fin).Wf := by
  constructor
  · exact Or.inl rfl
  · intro h; exact absurd rfl h

@[simp]
theorem fill_cap (r : Reader) : r.fill.cap = r.cap := by
  unfold Reader.fill; cases r.src <;> rfl

@[simp]
theorem fill_fin (r : Reader) : r.fill.fin = r.fin := by
  unfold Reader.fill; cases r.src <;> rfl

theorem fill_wf {r : Reader} (he : r.err = none) : r.fill.Wf := by
  unfold Reader.fill
  cases hs : r.src with
  | nil =>
    refine ⟨Or.inr rfl, fun _ => ?_⟩
    simp
  | cons c rest =>
    refine ⟨Or.inl he, fun h => absurd he h⟩

theorem fill_conserve (r : Reader) :
    r.fill.buf ++ r.fill.src.flatten = r.buf ++ r.src.flatten := by
  unfold Reader.fill
  cases hs : r.src with
  | nil => rfl
  | cons c rest =>
    have hjoin : (if (c.drop (r.cap - r.buf.length)).isEmpty then rest
        else c.drop (r.cap - r.buf.length) :: rest).flatten
        = c.drop (r.cap - r.buf.length) ++ rest.flatten := by
      by_cases hd : (c.drop (r.cap - r.buf.length)).isEmpty
      · simp [hd, List.isEmpty_iff.mp hd]
      · simp [hd]
    simp only [hjoin, List.flatten_cons]
    rw [List.append_assoc, ← List.append_assoc (c.take _),
      List.take_append_drop]

theorem nlIdx_lt {l : List Byte} {i : Nat} (h : nlIdx l = some i) :
    i < l.length := by
  induction l generalizing i with
  | nil => simp [nlIdx] at h
  | cons b bs ih =>
    simp only [nlIdx] at h
    split at h
    · cases h; simp
    · cases hm : nlIdx bs with
      | none => rw [hm] at h; simp at h
      | some j =>
        rw [hm] at h
        simp only [Option.map_some'] at h
        cases h
        have := ih hm
        simp; omega

theorem readSliceF_conserve {f : Nat} {r r1 : Reader} {line : List Byte}
    {e : Option IOErr} (h : readSliceF f r = some (line, e, r1)) :
    line ++ r1.buf ++ r1.src.flatten = r.buf ++ r.src.flatten := by
  induction f generalizing r with
  | zero => simp [readSliceF] at h
  | succ f ih =>
    rw [readSliceF] at h
    cases hnl : nlIdx r.buf with
    | some i =>
      simp only [hnl] at h
      cases h
      simp [List.append_assoc, List.take_append_drop]
    | none =>
      simp only [hnl] at h
      cases herr : r.err with
      | some e0 =>
        simp only [herr] at h; cases h; simp
      | none =>
        simp only [herr] at h
        split at h
        · cases h; simp
        · have := ih h
          rw [this, fill_conserve]

theorem readSliceF_wf {f : Nat} {r r1 : Reader} {line : List Byte}
    {e : Option IOErr} (h : readSliceF f r = some (line, e, r1))
    (hw : r.Wf) : r1.Wf ∧ r1.fin = r.fin ∧ r1.cap = r.cap := by
  induction f generalizing r with
  | zero => simp [readSliceF] at h
  | succ f ih =>
    rw [readSliceF] at h
    cases hnl : nlIdx r.buf with
    | some i =>
      simp only [hnl] at h; cases h
      exact ⟨⟨hw.1, fun hne => hw.2 hne⟩, rfl, rfl⟩
    | none =>
      simp only [hnl] at h
      cases herr : r.err with
      | some e0 =>
        simp only [herr] at h; cases h
        exact ⟨⟨Or.inl rfl, fun hne => absurd rfl hne⟩, rfl, rfl⟩
      | none =>
        simp only [herr] at h
        split at h
        · cases h
          exact ⟨⟨Or.inl rfl, fun hne => absurd rfl hne⟩, rfl, rfl⟩
        · have := ih h (fill_wf herr)
          simpa using this

@[simp]
theorem push_lines (l : Line) (t : TailResult) :
    (TailResult.push l t).lines = l :: t.lines := rfl

@[simp]
theorem push_carry (l : Line) (t : TailResult) :
    (TailResult.push l t).carry = t.carry := rfl

@[simp]
theorem push_reader (l : Line) (t : TailResult) :
    (TailResult.push l t).reader = t.reader := rfl

@[simp]
theorem push_errOut (l : Line) (t : TailResult) :
    (TailResult.push l t).errOut = t.errOut := rfl

@[simp]
theorem concatTexts_nil : concatTexts [] = [] := rfl

@[simp]
theorem concatTexts_cons (l : Line) (ls : List Line) :
    concatTexts (l :: ls) = l.text ++ concatTexts ls := rfl

theorem srcBytes_eq (r : Reader) : r.srcBytes = r.src.flatten.length := by
  unfold Reader.srcBytes
  rw [List.length_flatten]

theorem readSliceF_pool {f : Nat} {r r1 : Reader} {line : List Byte}
    {e : Option IOErr} (h : readSliceF f r = some (line, e, r1)) :
    line.length + r1.pool = r.pool := by
  have hlen := congrArg List.length (readSliceF_conserve h)
  simp only [List.length_append] at hlen
  unfold Reader.pool
  rw [srcBytes_eq, srcBytes_eq]
  omega

theorem fill_mu_lt {r : Reader} (he : r.err = none) (hb : r.buf.length < r.cap) :
    r.fill.mu < r.mu := by
  unfold Reader.fill Reader.mu Reader.srcBytes
  cases hs : r.src with
  | nil => simp [he]
  | cons c rest =>
    by_cases hd : (c.drop (r.cap - r.buf.length)).isEmpty
    · have hcl : c.length ≤ r.cap - r.buf.length := by
        have := congrArg List.length (List.isEmpty_iff.mp hd)
        simp [List.length_drop] at this
        omega
      simp only [hd, if_true, he]
      simp
      omega
    · have hcl : ¬ c.length ≤ r.cap - r.buf.length := by
        intro hle
        exact hd (by simp [List.isEmpty_iff, List.drop_eq_nil_iff.mpr hle])
      simp only [hd, if_false, he]
      simp [List.length_drop]
      omega

theorem readSliceF_isSome {f : Nat} {r : Reader} (hf : r.mu < f) :
    (readSliceF f r).isSome := by
  induction f generalizing r with
  | zero => omega
  | succ f ih =>
    rw [readSliceF]
    cases hnl : nlIdx r.buf with
    | some i => simp [hnl]
    | none =>
      simp only [hnl]
      cases herr : r.err with
      | some e0 => simp [herr]
      | none =>
        simp only [herr]
        split
        · simp
        · next hlt =>
          apply ih
          have hmu := fill_mu_lt herr (by omega)
          omega

theorem readSliceF_ne_nil {f : Nat} {r r1 : Reader} {line : List Byte}
    {e : Option IOErr} (h : readSliceF f r = some (line, e, r1))
    (hcap : 1 ≤ r.cap) (he : e = none ∨ e = some IOErr.errBufferFull)
    (hw : r.Wf) (hfin : r.fin ≠ IOErr.errBufferFull) :
    1 ≤ line.length := by
  induction f generalizing r with
  | zero => simp [readSliceF] at h
  | succ f ih =>
    rw [readSliceF] at h
    cases hnl : nlIdx r.buf with
    | some i =>
      simp only [hnl] at h
      cases h
      have := nlIdx_lt hnl
      simp [List.length_take]
      omega
    | none =>
      simp only [hnl] at h
      cases herr : r.err with
      | some e0 =>
        simp only [herr, Option.some.injEq, Prod.mk.injEq] at h
        obtain ⟨hline, hep, hr1⟩ := h
        have he0 : e0 = r.fin := by
          rcases hw.1 with h1 | h1
          · rw [herr] at h1; cases h1
          · rw [herr] at h1; injection h1
        rcases he with h2 | h2
        · rw [← hep] at h2; cases h2
        · rw [← hep] at h2
          injection h2 with h2
          exact absurd (h2 ▸ he0).symm hfin
      | none =>
        simp only [herr] at h
        split at h
        · next hfull =>
          simp only [Option.some.injEq, Prod.mk.injEq] at h
          obtain ⟨hline, _, _⟩ := h
          rw [← hline]
          omega
        · exact ih h (by simpa using hcap) (fill_wf herr)
            (by simpa using hfin)

theorem readSliceF_term {f : Nat} {r r1 : Reader} {line : List Byte}
    {e0 : IOErr} (h : readSliceF f r = some (line, some e0, r1))
    (hne : e0 ≠ IOErr.errBufferFull) (hw : r.Wf) :
    r1.buf = [] ∧ r1.src = [] ∧ e0 = r.fin := by
  induction f generalizing r with
  | zero => simp [readSliceF] at h
  | succ f ih =>
    rw [readSliceF] at h
    cases hnl : nlIdx r.buf with
    | some i =>
      simp only [hnl] at h
      cases h
    | none =>
      simp only [hnl] at h
      cases herr : r.err with
      | some ep =>
        simp only [herr, Option.some.injEq, Prod.mk.injEq] at h
        obtain ⟨hline, hep, hr1⟩ := h
        have hsrc : r.src = [] := hw.2 (by rw [herr]; exact Option.some_ne_none _)
        have hfin : ep = r.fin := by
          rcases hw.1 with h1 | h1
          · rw [herr] at h1; cases h1
          · rw [herr] at h1; injection h1
        refine ⟨?_, ?_, ?_⟩
        · rw [← hr1]
        · rw [← hr1]; exact hsrc
        · rw [← hep]; exact hfin
      | none =>
        simp only [herr] at h
        split at h
        · simp only [Option.some.injEq, Prod.mk.injEq] at h
          obtain ⟨_, hep, _⟩ := h
          exact absurd (by rw [← hep]) hne
        · have := ih h (fill_wf herr)
          simpa using this

theorem tailF_isSome {cfg : TailCfg} {clock : Nat → Nat} {fuel : Nat}
    {r : Reader} {buf : List Byte} {k : Nat} (hw : r.Wf) (hcap : 1 ≤ r.cap)
    (hfin : r.fin ≠ IOErr.errBufferFull) (hf : r.pool < fuel) :
    (tailF cfg clock fuel r buf k).isSome := by
  induction fuel generalizing r buf k with
  | zero => omega
  | succ fuel ih =>
    rw [tailF]
    cases hrs : readSliceF (rsFuel r) r with
    | none =>
      have hs := @readSliceF_isSome (rsFuel r) r (by unfold rsFuel; omega)
      rw [hrs] at hs
      simp at hs
    | some v =>
      obtain ⟨line, e, r1⟩ := v
      simp only
      obtain ⟨hw1, hfin1, hcap1⟩ := readSliceF_wf hrs hw
      have hpool := readSliceF_pool hrs
      split
      · next hbf =>
        have hlen : 1 ≤ line.length :=
          readSliceF_ne_nil hrs hcap (Or.inr hbf) hw hfin
        split
        · exact ih hw1 (hcap1 ▸ hcap) (hfin1 ▸ hfin) (by omega)
        · have := @ih r1 [] (k + 1) hw1 (hcap1 ▸ hcap)
            (hfin1 ▸ hfin) (by omega)
          cases htr : tailF cfg clock fuel r1 [] (k + 1) with
          | none => rw [htr] at this; simp at this
          | some res => simp [htr]
      · next hbf =>
        cases e with
        | some e1 => simp
        | none =>
          have hlen : 1 ≤ line.length :=
            readSliceF_ne_nil hrs hcap (Or.inl rfl) hw hfin
          simp only
          have := @ih r1 [] (k + 1) hw1 (hcap1 ▸ hcap)
            (hfin1 ▸ hfin) (by omega)
          cases htr : tailF cfg clock fuel r1 [] (k + 1) with
          | none => rw [htr] at this; simp at this
          | some res => simp [htr]

theorem tailF_conserve {cfg : TailCfg} {clock : Nat → Nat} {fuel : Nat}
    {r : Reader} {buf : List Byte} {k : Nat} {res : TailResult}
    (h : tailF cfg clock fuel r buf k = some res) :
    concatTexts res.lines ++ res.carry ++ res.reader.buf
        ++ res.reader.src.flatten
      = buf ++ r.buf ++ r.src.flatten := by
  induction fuel generalizing r buf k res with
  | zero => simp [tailF] at h
  | succ fuel ih =>
    rw [tailF] at h
    cases hrs : readSliceF (rsFuel r) r with
    | none => rw [hrs] at h; simp at h
    | some v =>
      obtain ⟨line, e, r1⟩ := v
      rw [hrs] at h
      simp only at h
      have hcons : line ++ (r1.buf ++ r1.src.flatten)
          = r.buf ++ r.src.flatten := by
        have := readSliceF_conserve hrs
        simpa [List.append_assoc] using this
      split at h
      · split at h
        · have := ih h
          simp only [List.append_assoc] at this ⊢
          rw [this]
          simp [hcons]
        · cases htr : tailF cfg clock fuel r1 [] (k + 1) with
          | none => rw [htr] at h; simp at h
          | some res1 =>
            rw [htr] at h
            simp only [Option.map_some', Option.some.injEq] at h
            subst h
            have := ih htr
            simp only [push_lines, push_carry, push_reader, push_errOut,
              concatTexts_cons, List.nil_append, List.append_assoc] at this ⊢
            rw [this]
            simp [hcons]
      · cases e with
        | some e1 =>
          simp only [Option.some.injEq] at h
          subst h
          simp [List.append_assoc, hcons]
        | none =>
          simp only at h
          cases htr : tailF cfg clock fuel r1 [] (k + 1) with
          | none => rw [htr] at h; simp at h
          | some res1 =>
            rw [htr] at h
            simp only [Option.map_some', Option.some.injEq] at h
            subst h
            have := ih htr
            simp only [push_lines, push_carry, push_reader, push_errOut,
              concatTexts_cons, List.nil_append, List.append_assoc] at this ⊢
            rw [this]
            simp [hcons]

theorem tailF_final {cfg : TailCfg} {clock : Nat → Nat} {fuel : Nat}
    {r : Reader} {buf : List Byte} {k : Nat} {res : TailResult}
    (h : tailF cfg clock fuel r buf k = some res) (hw : r.Wf) :
    res.reader.buf = [] ∧ res.reader.src = [] ∧ res.errOut = r.fin := by
  induction fuel generalizing r buf k res with
  | zero => simp [tailF] at h
  | succ fuel ih =>
    rw [tailF] at h
    cases hrs : readSliceF (rsFuel r) r with
    | none => rw [hrs] at h; simp at h
    | some v =>
      obtain ⟨line, e, r1⟩ := v
      rw [hrs] at h
      simp only at h
      obtain ⟨hw1, hfin1, _⟩ := readSliceF_wf hrs hw
      split at h
      · split at h
        · have := ih h hw1
          rw [hfin1] at this
          exact this
        · cases htr : tailF cfg clock fuel r1 [] (k + 1) with
          | none => rw [htr] at h; simp at h
          | some res1 =>
            rw [htr] at h
            simp only [Option.map_some', Option.some.injEq] at h
            subst h
            have := ih htr hw1
            rw [hfin1] at this
            simpa using this
      · next hbf =>
        cases e with
        | some e1 =>
          simp only [Option.some.injEq] at h
          subst h
          have hne : e1 ≠ IOErr.errBufferFull := by
            intro he1
            exact hbf (by rw [he1])
          have := readSliceF_term hrs hne hw
          simpa using this
        | none =>
          simp only at h
          cases htr : tailF cfg clock fuel r1 [] (k + 1) with
          | none => rw [htr] at h; simp at h
          | some res1 =>
            rw [htr] at h
            simp only [Option.map_some', Option.some.injEq] at h
            subst h
            have := ih htr hw1
            rw [hfin1] at this
            simpa using this

/-- Timestamp-free view of a `TailResult`: the texts of the emitted
lines, the carry buffer, the reader state and the returned error. -/
def TailResult.strip (t : TailResult) :
    List (List Byte) × List Byte × Reader × IOErr :=
  (t.lines.map Line.text, t.carry, t.reader, t.errOut)

theorem tailF_clock_irrelevant {cfg : TailCfg} (c1 c2 : Nat → Nat) :
    ∀ {fuel : Nat} {r : Reader} {buf : List Byte} (k1 k2 : Nat),
    (tailF cfg c1 fuel r buf k1).map TailResult.strip
      = (tailF cfg c2 fuel r buf k2).map TailResult.strip := by
  intro fuel
  induction fuel with
  | zero => intro r buf k1 k2; rfl
  | succ fuel ih =>
    intro r buf k1 k2
    rw [tailF, tailF]
    cases hrs : readSliceF (rsFuel r) r with
    | none => rfl
    | some v =>
      obtain ⟨line, e, r1⟩ := v
      simp only
      have key : ∀ (cl : Nat → Nat) (k : Nat) (o : Option TailResult),
          (o.map (TailResult.push ⟨buf ++ line, cl k⟩)).map TailResult.strip
            = (o.map TailResult.strip).map
                (fun q => ((buf ++ line) :: q.1, q.2)) := by
        intro cl k o
        cases o <;> rfl
      split
      · split
        · exact ih k1 k2
        · rw [key c1 k1, key c2 k2, ih (k1 + 1) (k2 + 1)]
      · cases e with
        | some e1 => rfl
        | none =>
          simp only
          rw [key c1 k1, key c2 k2, ih (k1 + 1) (k2 + 1)]

theorem nlIdx_none {l : List Byte} (h : nlIdx l = none) : NL ∉ l := by
  induction l with
  | nil => simp
  | cons b bs ih =>
    simp only [nlIdx] at h
    split at h
    · cases h
    · next hb =>
      cases hm : nlIdx bs with
      | none =>
        intro hmem
        rcases List.mem_cons.mp hmem with h1 | h1
        · exact hb h1.symm
        · exact ih hm h1
      | some j => rw [hm] at h; simp at h

theorem readSliceF_err_noNL {f : Nat} {r r1 : Reader} {line : List Byte}
    {e : IOErr} (h : readSliceF f r = some (line, some e, r1)) :
    NL ∉ line := by
  induction f generalizing r with
  | zero => simp [readSliceF] at h
  | succ f ih =>
    rw [readSliceF] at h
    cases hnl : nlIdx r.buf with
    | some i =>
      simp only [hnl] at h
      simp at h
    | none =>
      simp only [hnl] at h
      cases herr : r.err with
      | some e0 =>
        simp only [herr, Option.some.injEq, Prod.mk.injEq] at h
        obtain ⟨hline, _, _⟩ := h
        rw [← hline]
        exact nlIdx_none hnl
      | none =>
        simp only [herr] at h
        split at h
        · simp only [Option.some.injEq, Prod.mk.injEq] at h
          obtain ⟨hline, _, _⟩ := h
          rw [← hline]
          exact nlIdx_none hnl
        · exact ih h

/-- `Tail.newReader`: the buffer size it requests from
`bufio.NewReaderSize` — the default 4096, lowered to
`Options.MaxBytesLine` when that is nonzero and smaller than the
default. -/
def newReaderSize (maxBytesLine : Nat) : Nat :=
  let defaultBufSize := 4096
  if maxBytesLine ≠ 0 ∧ defaultBufSize > maxBytesLine then maxBytesLine
  else defaultBufSize

/-- C1: for every finite sequence of byte chunks returned by the source
(terminated by EOF), the run of the line extractor `tail.tail`
terminates, and the concatenation of the `Text` fields of all emitted
`Line` records followed by the final contents of the carry buffer
`t.buf` equals the concatenation of every byte returned by the source,
in order — for every `MaxBytesLine` setting (zero meaning unlimited)
and every positive reader capacity. -/
theorem tail_extractor_conservation (cap maxB : Nat) (clock : Nat → Nat)
    (chunks : List (List Byte)) (hcap : 1 ≤ cap) :
    ∃ res : TailResult,
      tailRun ⟨cap, maxB⟩ clock chunks IOErr.eof = some res ∧
        concatTexts res.lines ++ res.carry = chunks.flatten := by
  have hw := initReader_wf cap chunks IOErr.eof
  have hS := @tailF_isSome ⟨cap, maxB⟩ clock
    ((initReader cap chunks IOErr.eof).pool + 1) (initReader cap chunks IOErr.eof)
    [] 0 hw hcap (by simp [initReader]) (Nat.lt_succ_self _)
  cases hres : tailF ⟨cap, maxB⟩ clock
      ((initReader cap chunks IOErr.eof).pool + 1)
      (initReader cap chunks IOErr.eof) [] 0 with
  | none => rw [hres] at hS; simp at hS
  | some res =>
    refine ⟨res, hres, ?_⟩
    have hcons := tailF_conserve hres
    have hfin := tailF_final hres hw
    rw [hfin.1, hfin.2.1] at hcons
    simpa [initReader] using hcons

/-- Witness for C1 at a concrete input. -/
theorem tail_extractor_conservation_witness :
    ∃ res : TailResult,
      tailRun ⟨16, 0⟩ (fun _ => 0) [[104, 105], [10, 120]] IOErr.eof
          = some res ∧
        concatTexts res.lines ++ res.carry
          = ([[104, 105], [10, 120]] : List (List Byte)).flatten :=
  tail_extractor_conservation 16 0 (fun _ => 0) [[104, 105], [10, 120]]
    (by decide)

/-- C10: line extraction is deterministic apart from timestamps — two
runs of `tail.tail` over sources returning identical chunk sequences
with identical termination, under any two timestamp clocks, emit the
same sequence of `Text` values, the same final carry buffer, the same
final reader state and the same error. -/
theorem tail_extractor_deterministic (cfg : TailCfg) (c1 c2 : Nat → Nat)
    (chunks : List (List Byte)) (fin : IOErr) :
    (tailRun cfg c1 chunks fin).map TailResult.strip
      = (tailRun cfg c2 chunks fin).map TailResult.strip :=
  tailF_clock_irrelevant c1 c2 0 0

/-- C3: a positive `MaxBytesLine` `m` caps the buffered reader —
`newReader` requests size `m` whenever `m` is below the default 4096,
and never requests more than `m` — and it caps the carry buffer's flush
trigger: when `ReadSlice` fills its buffer without finding a newline
(returning `ErrBufferFull`) and the carry buffer has reached `m`, the
accumulated bytes (which contain no newline) are emitted as one `Line`
and the carry buffer is reset to empty. -/
theorem maxBytesLine_caps_buffer_and_flush :
    (∀ m, 0 < m → m < 4096 → newReaderSize m = m) ∧
    (∀ m, 0 < m → newReaderSize m ≤ m) ∧
    (∀ (f : Nat) (r r1 : Reader) (line : List Byte) (e : IOErr),
      readSliceF f r = some (line, some e, r1) → NL ∉ line) ∧
    (∀ (cfg : TailCfg) (clock : Nat → Nat) (fuel : Nat) (r r1 : Reader)
        (buf line : List Byte) (k : Nat),
      readSliceF (rsFuel r) r = some (line, some IOErr.errBufferFull, r1) →
      cfg.maxBytesLine ≠ 0 → cfg.maxBytesLine ≤ (buf ++ line).length →
      tailF cfg clock (fuel + 1) r buf k
        = (tailF cfg clock fuel r1 [] (k + 1)).map
            (TailResult.push ⟨buf ++ line, clock k⟩)) := by
  refine ⟨?_, ?_, ?_, ?_⟩
  · intro m h0 hlt
    unfold newReaderSize
    rw [if_pos ⟨by omega, by omega⟩]
  · intro m h0
    simp only [newReaderSize]
    split
    · exact Nat.le_refl m
    · next hc =>
      push_neg at hc
      have := hc (by omega)
      omega
  · intro f r r1 line e h
    exact readSliceF_err_noNL h
  · intro cfg clock fuel r r1 buf line k hrs hm0 hle
    rw [tailF, hrs]
    simp only
    rw [if_pos trivial, if_neg]
    rintro (hc | hc)
    · exact hm0 hc
    · omega

/-- Witness for C3 at concrete inputs: with `MaxBytesLine = 16` and
reader capacity 16, a 20-byte newline-free chunk triggers a flush of
the first 16 bytes as one line with no newline, resetting the carry. -/
theorem maxBytesLine_caps_buffer_and_flush_witness :
    newReaderSize 100 = 100 ∧ newReaderSize 5000 ≤ 5000 ∧
      NL ∉ [97, 97, 97] ∧
      tailF ⟨16, 16⟩ (fun _ => 0) 5
          (initReader 16
            [[97, 97, 97, 97, 97, 97, 97, 97, 97, 97,
              97, 97, 97, 97, 97, 97, 97, 97, 97, 97]] IOErr.eof) [] 0
        = (tailF ⟨16, 16⟩ (fun _ => 0) 4
            ⟨16, [], none, [[97, 97, 97, 97]], IOErr.eof⟩ [] 1).map
            (TailResult.push
              ⟨[] ++ [97, 97, 97, 97, 97, 97, 97, 97,
                97, 97, 97, 97, 97, 97, 97, 97], 0⟩) := by
  refine ⟨maxBytesLine_caps_buffer_and_flush.1 100 (by decide) (by decide),
    maxBytesLine_caps_buffer_and_flush.2.1 5000 (by decide),
    maxBytesLine_caps_buffer_and_flush.2.2.1 3
      ⟨16, [97, 97, 97], some IOErr.eof, [], IOErr.eof⟩
      ⟨16, [], none, [], IOErr.eof⟩ [97, 97, 97] IOErr.eof (by decide),
    maxBytesLine_caps_buffer_and_flush.2.2.2 ⟨16, 16⟩ (fun _ => 0) 4
      (initReader 16
        [[97, 97, 97, 97, 97, 97, 97, 97, 97, 97,
          97, 97, 97, 97, 97, 97, 97, 97, 97, 97]] IOErr.eof)
      ⟨16, [], none, [[97, 97, 97, 97]], IOErr.eof⟩ []
      [97, 97, 97, 97, 97, 97, 97, 97, 97, 97, 97, 97, 97, 97, 97, 97] 0
      (by decide) (by decide) (by decide)⟩

/-! ### The open-retry loop (`Tail.open`) -/

/-- A seek anchor: `io.SeekStart` / `os.SEEK_SET` or `io.SeekEnd` /
`os.SEEK_END`. -/
inductive Anchor where
  | seekStart
  | seekEnd
  deriving DecidableEq, Repr

/-- The outcome of one iteration of the retry loop in `Tail.open`:
either `os.Open` succeeds (and then the subsequent `file.Seek` and
`watcher.Add` calls may each fail), or `os.Open` fails with some
error. -/
inductive OpenAttempt where
  | ok (seekRes addRes : Option IOErr)
  | fail (e : IOErr)
  deriving DecidableEq, Repr

/-- The result of `Tail.open`: a follower opened at a given anchor, an
error returned to `runFile` (from `Seek` or `watcher.Add`), or
cancellation observed during the retry sleep (the loop returns
`ctx.Err()`). -/
inductive OpenResult where
  | opened (anchor : Anchor)
  | errored (e : IOErr)
  | cancelledOut
  deriving DecidableEq, Repr

/-- The retry loop of `Tail.open`, driven by the script `attempts` of
successive outcomes.  On a failed `os.Open` — whatever the error — the
requested seek anchor is downgraded to `seekStart` and the loop sleeps
and retries; the loop ends only by a successful open, by a
seek/watcher error after a successful open, or by cancellation
(modelled as the script running out). -/
def openLoop : Anchor → List OpenAttempt → OpenResult
  | _, [] => OpenResult.cancelledOut
  | a, OpenAttempt.ok seekRes addRes :: _ =>
    match seekRes with
    | some e => OpenResult.errored e
    | none =>
      match addRes with
      | some e => OpenResult.errored e
      | none => OpenResult.opened a
  | _, OpenAttempt.fail _ :: rest => openLoop Anchor.seekStart rest

/-- Counterexample for C5: an open failure that is not NotFound-like
(here a permission error) is retried, not surfaced: the next attempt
succeeds and the loop returns an opened follower (at `seekStart`),
with no error ever surfaced.  The code's retry loop never inspects the
kind of the open error. -/
theorem open_retries_non_notfound_error :
    openLoop Anchor.seekEnd
        [OpenAttempt.fail IOErr.permissionDenied,
          OpenAttempt.ok none none]
      = OpenResult.opened Anchor.seekStart := by rfl

/-- C5 amended: the retry loop retries every open failure regardless of
the error kind (downgrading the anchor to `seekStart`), and an
`errored` result can only arise from a seek or watcher-registration
failure after a successful open — never from the open failure itself. -/
theorem open_retry_ignores_error_kind :
    (∀ (a : Anchor) (e : IOErr) (rest : List OpenAttempt),
      openLoop a (OpenAttempt.fail e :: rest) = openLoop Anchor.seekStart rest) ∧
    (∀ (a : Anchor) (s : List OpenAttempt) (e : IOErr),
      openLoop a s = OpenResult.errored e →
        ∃ pre seekRes addRes rest,
          s = pre ++ OpenAttempt.ok seekRes addRes :: rest ∧
            (seekRes = some e ∨ (seekRes = none ∧ addRes = some e))) := by
  constructor
  · intro a e rest
    rfl
  · intro a s
    induction s generalizing a with
    | nil => intro e h; cases h
    | cons att rest ih =>
      intro e h
      cases att with
      | ok seekRes addRes =>
        cases seekRes with
        | some e0 =>
          simp only [openLoop] at h
          cases h
          exact ⟨[], some e, addRes, rest, rfl, Or.inl rfl⟩
        | none =>
          cases addRes with
          | some e0 =>
            simp only [openLoop] at h
            cases h
            exact ⟨[], none, some e, rest, rfl, Or.inr ⟨rfl, rfl⟩⟩
          | none => simp only [openLoop] at h; cases h
      | fail e0 =>
        simp only [openLoop] at h
        obtain ⟨pre, seekRes, addRes, rest1, hs, hor⟩ := ih Anchor.seekStart e h
        exact ⟨OpenAttempt.fail e0 :: pre, seekRes, addRes, rest1,
          by rw [hs]; rfl, hor⟩

/-- Witness for the amended C5. -/
theorem open_retry_ignores_error_kind_witness :
    openLoop Anchor.seekEnd
        [OpenAttempt.fail IOErr.notFound, OpenAttempt.ok none none]
      = openLoop Anchor.seekStart [OpenAttempt.ok none none] ∧
    ∃ pre seekRes addRes rest,
      ([OpenAttempt.ok (some IOErr.permissionDenied) none]
          : List OpenAttempt)
          = pre ++ OpenAttempt.ok seekRes addRes :: rest ∧
        (seekRes = some IOErr.permissionDenied ∨
          (seekRes = none ∧ addRes = some IOErr.permissionDenied)) :=
  ⟨open_retry_ignores_error_kind.1 Anchor.seekEnd IOErr.notFound
      [OpenAttempt.ok none none],
    open_retry_ignores_error_kind.2 Anchor.seekEnd
      [OpenAttempt.ok (some IOErr.permissionDenied) none]
      IOErr.permissionDenied (by rfl)⟩

/-- C6: the requested anchor is honoured only when the very first open
attempt succeeds; after any failed attempt every later successful open
uses `seekStart`, whatever anchor was requested. -/
theorem anchor_downgrade_after_first_failure :
    (∀ (a : Anchor) (seekRes addRes : Option IOErr)
        (rest : List OpenAttempt),
      seekRes = none → addRes = none →
        openLoop a (OpenAttempt.ok seekRes addRes :: rest)
          = OpenResult.opened a) ∧
    (∀ (a b : Anchor) (e : IOErr) (rest : List OpenAttempt),
      openLoop a (OpenAttempt.fail e :: rest) = OpenResult.opened b →
        b = Anchor.seekStart) := by
  constructor
  · intro a seekRes addRes rest hs ha
    subst hs; subst ha
    rfl
  · have key : ∀ (s : List OpenAttempt) (b : Anchor),
        openLoop Anchor.seekStart s = OpenResult.opened b →
          b = Anchor.seekStart := by
      intro s
      induction s with
      | nil => intro b h; cases h
      | cons att rest ih =>
        intro b h
        cases att with
        | ok seekRes addRes =>
          cases seekRes with
          | some e0 => simp only [openLoop] at h; cases h
          | none =>
            cases addRes with
            | some e0 => simp only [openLoop] at h; cases h
            | none => simp only [openLoop] at h; cases h; rfl
        | fail e0 =>
          simp only [openLoop] at h
          exact ih b h
    intro a b e rest h
    exact key rest b h

/-- Witness for C6. -/
theorem anchor_downgrade_after_first_failure_witness :
    openLoop Anchor.seekEnd [OpenAttempt.ok none none]
        = OpenResult.opened Anchor.seekEnd ∧
      (Anchor.seekStart : Anchor) = Anchor.seekStart :=
  ⟨anchor_downgrade_after_first_failure.1 Anchor.seekEnd none none [] rfl rfl,
    anchor_downgrade_after_first_failure.2 Anchor.seekEnd Anchor.seekStart
      IOErr.notFound [OpenAttempt.ok none none] (by rfl)⟩

/-! ### Truncation detection (`tail.restrict`) -/

/-- The observable state of the open file: its size per `Stat` and the
current read cursor per `Seek(0, io.SeekCurrent)`. -/
structure FileSt where
  size : Nat
  pos : Nat
  deriving DecidableEq, Repr

/-- `tail.restrict`: if the stat size is below the cursor the file was
truncated and the cursor is reset to offset zero; otherwise the state
is untouched. -/
def restrict (f : FileSt) : FileSt :=
  if f.size < f.pos then { f with pos := 0 } else f

/-- One reader-task pass: `restrict` runs once, then the read-to-EOF
pass advances the cursor by the `n` bytes it consumes. -/
def followerPass (f : FileSt) (n : Nat) : FileSt :=
  { restrict f with pos := (restrict f).pos + n }

/-- C7: `restrict` leaves the cursor unchanged whenever `size ≥ cursor`
and resets it to zero exactly when `size < cursor`; consequently, over
a pass (restrict followed by a forward read), the cursor never
decreases except by the truncation reset to zero. -/
theorem cursor_monotone_except_truncation :
    (∀ f : FileSt, f.pos ≤ f.size → restrict f = f) ∧
    (∀ f : FileSt, f.size < f.pos → (restrict f).pos = 0) ∧
    (∀ (f : FileSt) (n : Nat),
      f.pos ≤ (followerPass f n).pos ∨ (restrict f).pos = 0) := by
  refine ⟨?_, ?_, ?_⟩
  · intro f h
    unfold restrict
    rw [if_neg (by omega)]
  · intro f h
    unfold restrict
    rw [if_pos h]
  · intro f n
    unfold followerPass restrict
    by_cases h : f.size < f.pos
    · right
      rw [if_pos h]
    · left
      rw [if_neg h]
      simp

/-- Witness for C7. -/
theorem cursor_monotone_except_truncation_witness :
    restrict ⟨10, 4⟩ = ⟨10, 4⟩ ∧ (restrict ⟨3, 7⟩).pos = 0 ∧
      ((⟨10, 4⟩ : FileSt).pos ≤ (followerPass ⟨10, 4⟩ 2).pos ∨
        (restrict ⟨10, 4⟩).pos = 0) :=
  ⟨cursor_monotone_except_truncation.1 ⟨10, 4⟩ (by decide),
    cursor_monotone_except_truncation.2.1 ⟨3, 7⟩ (by decide),
    cursor_monotone_except_truncation.2.2 ⟨10, 4⟩ 2⟩

/-! ### The event loop of `tail.runFile`

The event task's `select` is modelled by the sequence of messages it
processes, in the order it processes them (Go's `select` chooses among
ready channels nondeterministically, so every processing order of
pending messages is a possible execution). -/

/-- State of the event loop: the `renamed` and `waiting` flags. -/
structure EvState where
  renamed : Bool
  waiting : Bool
  deriving DecidableEq, Repr

/-- Result of `getFileName` on the open file, consulted on a rename. -/
inductive NameRes where
  | ok (name : List Byte)
  | err (e : IOErr)
  deriving DecidableEq, Repr

/-- One message selected by the event loop: a watcher event (with its
`Remove`/`Rename` bits and the oracle results of the `getFileName` and
`watcher.Add` calls a rename would trigger), a message from the reader
task on `cherr`, a watcher error, or context cancellation. -/
inductive Msg where
  | event (hasRemove hasRename : Bool) (nameRes : NameRes)
      (addRes : Option IOErr)
  | readerErr (e : IOErr)
  | watcherErr (e : IOErr)
  | ctxDone
  deriving DecidableEq, Repr

/-- Observable actions of the event loop: spawning the new-path
follower (`runFile(io.SeekStart)`), scheduling the 15-second old-file
grace timer, registering the renamed path with the watcher, waking the
reader task on `ch`, and surfacing an error on the errors channel. -/
inductive Act where
  | spawnFollower
  | scheduleGraceTimer
  | watchAdd (name : List Byte)
  | wake
  | surfaceErr (e : IOErr)
  deriving DecidableEq, Repr

/-- One iteration of the event loop of `tail.runFile`: the emitted
actions, whether the loop returns, and the successor state. -/
def evStep (s : EvState) (m : Msg) : List Act × Bool × EvState :=
  match m with
  | Msg.event hasRemove hasRename nameRes addRes =>
    if hasRemove then ([], true, s)
    else
      if hasRename then
        let acts0 := if s.renamed = false then
          [Act.spawnFollower, Act.scheduleGraceTimer] else []
        match nameRes with
        | NameRes.err e => (acts0 ++ [Act.surfaceErr e], true, s)
        | NameRes.ok name =>
          match addRes with
          | some e => (acts0 ++ [Act.surfaceErr e], true, s)
          | none =>
            if s.waiting then
              (acts0 ++ [Act.watchAdd name, Act.wake], false,
                ⟨true, false⟩)
            else
              (acts0 ++ [Act.watchAdd name], false, ⟨true, s.waiting⟩)
      else
        if s.waiting then ([Act.wake], false, { s with waiting := false })
        else ([], false, s)
  | Msg.readerErr e =>
    if e = IOErr.eof then ([], false, { s with waiting := true })
    else ([Act.surfaceErr e], true, s)
  | Msg.watcherErr e => ([Act.surfaceErr e], true, s)
  | Msg.ctxDone => ([], true, s)

/-- A run of the event loop over a message sequence, stopping at the
first returning iteration; yields the emitted actions and final
state. -/
def evRun : EvState → List Msg → List Act × EvState
  | s, [] => ([], s)
  | s, m :: ms =>
    let r := evStep s m
    if r.2.1 then (r.1, r.2.2)
    else
      let r2 := evRun r.2.2 ms
      (r.1 ++ r2.1, r2.2)

theorem evStep_spawn_of_renamed {s : EvState} (m : Msg)
    (h : s.renamed = true) :
    Act.spawnFollower ∉ (evStep s m).1 ∧ (evStep s m).2.2.renamed = true := by
  cases m with
  | event hasRemove hasRename nameRes addRes =>
    cases hasRemove with
    | true => simpa [evStep] using h
    | false =>
      cases hasRename with
      | false =>
        by_cases hwt : s.waiting <;> simp [evStep, hwt, h]
      | true =>
        cases nameRes with
        | err e => simp [evStep, h]
        | ok name =>
          cases addRes with
          | some e => simp [evStep, h]
          | none =>
            by_cases hwt : s.waiting <;> simp [evStep, hwt, h]
  | readerErr e =>
    by_cases he : e = IOErr.eof <;> simpa [evStep, he] using h
  | watcherErr e => simpa [evStep] using h
  | ctxDone => simpa [evStep] using h

theorem evRun_no_spawn_of_renamed :
    ∀ (ms : List Msg) (s : EvState), s.renamed = true →
      Act.spawnFollower ∉ (evRun s ms).1 := by
  intro ms
  induction ms with
  | nil => intro s _ hmem; simp [evRun] at hmem
  | cons m ms ih =>
    intro s h hmem
    obtain ⟨hact, hren⟩ := evStep_spawn_of_renamed m h
    simp only [evRun] at hmem
    split at hmem
    · exact hact hmem
    · rcases List.mem_append.mp hmem with h1 | h1
      · exact hact h1
      · exact ih _ hren h1

theorem evStep_spawn_count (s : EvState) (m : Msg) :
    (evStep s m).1.count Act.spawnFollower ≤ 1 ∧
      ((evStep s m).1.count Act.spawnFollower = 1 →
        (evStep s m).2.2.renamed = true ∨ (evStep s m).2.1 = true) := by
  cases m with
  | event hasRemove hasRename nameRes addRes =>
    cases hasRemove with
    | true => simp [evStep]
    | false =>
      cases hasRename with
      | false =>
        by_cases hwt : s.waiting <;> simp [evStep, hwt]
      | true =>
        cases hr : s.renamed with
        | true =>
          cases nameRes with
          | err e => simp [evStep, hr]
          | ok name =>
            cases addRes with
            | some e => simp [evStep, hr]
            | none =>
              by_cases hwt : s.waiting <;> simp [evStep, hwt, hr]
        | false =>
          cases nameRes with
          | err e => simp [evStep, hr]
          | ok name =>
            cases addRes with
            | some e => simp [evStep, hr]
            | none =>
              by_cases hwt : s.waiting <;> simp [evStep, hwt, hr]
  | readerErr e =>
    by_cases he : e = IOErr.eof <;> simp [evStep, he]
  | watcherErr e => simp [evStep]
  | ctxDone => simp [evStep]

/-- C8: no matter which (and how many) rename events the event loop of
a follower processes, the rotation handoff — spawning the new follower
on the original path — happens at most once per follower. -/
theorem rotation_handoff_at_most_once (ms : List Msg) :
    ((evRun ⟨false, false⟩ ms).1.count Act.spawnFollower) ≤ 1 := by
  suffices h : ∀ (ms : List Msg) (s : EvState),
      ((evRun s ms).1.count Act.spawnFollower) ≤ 1 from h ms ⟨false, false⟩
  intro ms
  induction ms with
  | nil => intro s; simp [evRun]
  | cons m ms ih =>
    intro s
    obtain ⟨hle, himp⟩ := evStep_spawn_count s m
    simp only [evRun]
    split
    · exact hle
    · next hex =>
      rw [List.count_append]
      rcases Nat.lt_or_ge ((evStep s m).1.count Act.spawnFollower) 1 with h1 | h1
      · have := ih (evStep s m).2.2
        omega
      · have h2 : (evStep s m).1.count Act.spawnFollower = 1 := by omega
        rcases himp h2 with h3 | h3
        · have h4 := evRun_no_spawn_of_renamed ms _ h3
          have h5 : ((evRun (evStep s m).2.2 ms).1.count Act.spawnFollower) = 0 :=
            List.count_eq_zero.mpr h4
          omega
        · exact absurd h3 (by simpa using hex)

/-- Counterexample for C2: Go's `select` may process a write event
before the reader's EOF signal even when the event's write happened
after the reader reached EOF.  In that processing order — a write
event, then the EOF signal — the event is ignored (the `waiting` flag
stays `false` and no state records the event), no wake is ever
emitted, and the loop ends with `waiting = true` while the reader
parks: the pre-signal event did NOT re-arm the waiting flag, so the
wake for those post-EOF bytes is missed until some later event
arrives.  This refutes the claim's clause that an event received
before the signal re-arms the flag so the reader is woken at its next
park. -/
theorem pre_signal_event_ignored :
    (evStep ⟨false, false⟩
        (Msg.event false false (NameRes.ok []) none)).2.2.waiting = false ∧
      (evStep ⟨false, false⟩
        (Msg.event false false (NameRes.ok []) none)).1 = [] ∧
      evRun ⟨false, false⟩
          [Msg.event false false (NameRes.ok []) none,
            Msg.readerErr IOErr.eof]
        = ([], ⟨false, true⟩) := by
  refine ⟨by decide, by decide, by decide⟩

theorem evStep_no_wake {s : EvState} {m : Msg} (hw : s.waiting = false)
    (hm : m ≠ Msg.readerErr IOErr.eof) :
    Act.wake ∉ (evStep s m).1 ∧ (evStep s m).2.2.waiting = false := by
  cases m with
  | event hasRemove hasRename nameRes addRes =>
    cases hasRemove with
    | true => simp [evStep, hw]
    | false =>
      cases hasRename with
      | false => simp [evStep, hw]
      | true =>
        cases nameRes with
        | err e => by_cases hr : s.renamed = false <;> simp [evStep, hr, hw]
        | ok name =>
          cases addRes with
          | some e =>
            by_cases hr : s.renamed = false <;> simp [evStep, hr, hw]
          | none =>
            by_cases hr : s.renamed = false <;> simp [evStep, hr, hw]
  | readerErr e =>
    have he : e ≠ IOErr.eof := fun h => hm (by rw [h])
    simp [evStep, he, hw]
  | watcherErr e => simp [evStep, hw]
  | ctxDone => simp [evStep, hw]

/-- C2 amended: the reader task parks only after sending its EOF signal
(it sends on `cherr` and only then receives on `ch`), and the event
task issues a wake only while the `waiting` flag is set — a flag set
exclusively by processing the reader's EOF signal.  Hence a run whose
messages contain no reader-EOF signal emits no wake.  An event
processed before the EOF signal, however, is ignored rather than
re-arming the flag (see the counterexample), so the pair tolerates
spurious wakes but can miss the wake for a write whose only event is
processed before the EOF signal. -/
theorem wake_only_after_eof_signal :
    (∀ (ms : List Msg) (s : EvState), s.waiting = false →
      (∀ m ∈ ms, m ≠ Msg.readerErr IOErr.eof) →
        Act.wake ∉ (evRun s ms).1) ∧
    (∀ (s : EvState) (m : Msg), (evStep s m).2.2.waiting = true →
      s.waiting = true ∨ m = Msg.readerErr IOErr.eof) := by
  constructor
  · intro ms
    induction ms with
    | nil => intro s _ _ hmem; simp [evRun] at hmem
    | cons m ms ih =>
      intro s hw hall hmem
      obtain ⟨hact, hw1⟩ := evStep_no_wake hw (hall m (List.mem_cons_self m ms))
      simp only [evRun] at hmem
      split at hmem
      · exact hact hmem
      · rcases List.mem_append.mp hmem with h1 | h1
        · exact hact h1
        · exact ih _ hw1 (fun m1 hm1 => hall m1 (List.mem_cons_of_mem m hm1)) h1
  · intro s m hw
    cases m with
    | event hasRemove hasRename nameRes addRes =>
      left
      cases hasRemove with
      | true => simpa [evStep] using hw
      | false =>
        cases hasRename with
        | false =>
          by_cases hwt : s.waiting
          · exact hwt
          · simp [evStep, hwt] at hw
        | true =>
          cases nameRes with
          | err e => simpa [evStep] using hw
          | ok name =>
            cases addRes with
            | some e => simpa [evStep] using hw
            | none =>
              by_cases hwt : s.waiting
              · exact hwt
              · simp [evStep, hwt] at hw
    | readerErr e =>
      by_cases he : e = IOErr.eof
      · exact Or.inr (by rw [he])
      · simp [evStep, he] at hw
        exact Or.inl hw
    | watcherErr e =>
      simp [evStep] at hw
      exact Or.inl hw
    | ctxDone =>
      simp [evStep] at hw
      exact Or.inl hw

/-- Witness for the amended C2. -/
theorem wake_only_after_eof_signal_witness :
    Act.wake ∉ (evRun ⟨false, false⟩
        [Msg.event false false (NameRes.ok []) none, Msg.ctxDone]).1 ∧
      ((⟨false, true⟩ : EvState).waiting = true ∨
        Msg.ctxDone = Msg.readerErr IOErr.eof) :=
  ⟨wake_only_after_eof_signal.1
      [Msg.event false false (NameRes.ok []) none, Msg.ctxDone]
      ⟨false, false⟩ (by decide) (by decide),
    wake_only_after_eof_signal.2 ⟨false, true⟩ Msg.ctxDone (by decide)⟩

/-! ### Teardown: the task barrier and `Tail.wait`

Every task that sends on the lines or errors channels is registered
with `wg` (`wg.Add(1)`) by an already-registered task before it is
spawned, and deregisters on exit (`wg.Done()`); the constructors
register the first task before spawning the supervisor `wait`, which
blocks on `wg.Wait()` and then closes the errors channel and then the
lines channel.  The transition system below interleaves task
spawn/exit events with the supervisor's program counter. -/

/-- Program counter of the supervisor task `Tail.wait`. -/
inductive SupPc where
  | waitBarrier
  | closeErrs
  | closeLines
  | donePc
  deriving DecidableEq, Repr

/-- Events observable in an execution of the handle. -/
inductive SupEv where
  | spawn
  | exit
  | closeErrors
  | closeLines
  deriving DecidableEq, Repr

/-- Global state: the `wg` counter, the supervisor's program counter,
and the trace of events so far. -/
structure SupSt where
  tasks : Nat
  pc : SupPc
  trace : List SupEv
  deriving DecidableEq, Repr

/-- Interleaved small steps: a live (counted) task may spawn another
(`wg.Add(1)` happens in a counted task) or exit (`wg.Done()`); the
supervisor passes `wg.Wait()` only when the counter is zero, then
closes the errors channel, then the lines channel. -/
inductive SupStep : SupSt → SupSt → Prop
  | spawn (s : SupSt) (h : 1 ≤ s.tasks) :
      SupStep s ⟨s.tasks + 1, s.pc, s.trace ++ [SupEv.spawn]⟩
  | exit (s : SupSt) (h : 1 ≤ s.tasks) :
      SupStep s ⟨s.tasks - 1, s.pc, s.trace ++ [SupEv.exit]⟩
  | barrier (s : SupSt) (h : s.tasks = 0) (hpc : s.pc = SupPc.waitBarrier) :
      SupStep s ⟨s.tasks, SupPc.closeErrs, s.trace⟩
  | closeE (s : SupSt) (hpc : s.pc = SupPc.closeErrs) :
      SupStep s ⟨s.tasks, SupPc.closeLines, s.trace ++ [SupEv.closeErrors]⟩
  | closeL (s : SupSt) (hpc : s.pc = SupPc.closeLines) :
      SupStep s ⟨s.tasks, SupPc.donePc, s.trace ++ [SupEv.closeLines]⟩

/-- Reachability from the constructor's state: one registered task
(`wg.Add(1)` before `go … runFile` / `go … runReader`), supervisor at
the barrier, empty trace. -/
inductive SupReach : SupSt → Prop
  | start : SupReach ⟨1, SupPc.waitBarrier, []⟩
  | step {s s1 : SupSt} : SupReach s → SupStep s s1 → SupReach s1

/-- A trace fragment containing only task spawn/exit events. -/
def taskEventsOnly (t : List SupEv) : Prop :=
  ∀ e ∈ t, e = SupEv.spawn ∨ e = SupEv.exit

/-- Inductive invariant of the teardown system. -/
def supInv (s : SupSt) : Prop :=
  (s.pc = SupPc.waitBarrier → taskEventsOnly s.trace) ∧
  (s.pc = SupPc.closeErrs → taskEventsOnly s.trace ∧ s.tasks = 0) ∧
  (s.pc = SupPc.closeLines → s.tasks = 0 ∧
    ∃ t0, s.trace = t0 ++ [SupEv.closeErrors] ∧ taskEventsOnly t0) ∧
  (s.pc = SupPc.donePc → s.tasks = 0 ∧
    ∃ t0, s.trace = t0 ++ [SupEv.closeErrors, SupEv.closeLines] ∧
      taskEventsOnly t0)

theorem taskEventsOnly_append_task {t : List SupEv} {e : SupEv}
    (h : taskEventsOnly t) (he : e = SupEv.spawn ∨ e = SupEv.exit) :
    taskEventsOnly (t ++ [e]) := by
  intro x hx
  rcases List.mem_append.mp hx with h1 | h1
  · exact h x h1
  · rcases List.mem_singleton.mp h1 with rfl
    exact he

theorem supReach_inv {s : SupSt} (h : SupReach s) : supInv s := by
  induction h with
  | start =>
    refine ⟨fun _ => ?_, ?_, ?_, ?_⟩
    · intro e he
      simp at he
    · intro hpc
      simp at hpc
    · intro hpc
      simp at hpc
    · intro hpc
      simp at hpc
  | step hr hstep ih =>
    rename_i s s1
    cases hstep with
    | spawn h1 =>
      have hpcw : s.pc = SupPc.waitBarrier := by
        by_contra hne
        cases hpc : s.pc with
        | waitBarrier => exact hne hpc
        | closeErrs => have := (ih.2.1 hpc).2; omega
        | closeLines => have := (ih.2.2.1 hpc).1; omega
        | donePc => have := (ih.2.2.2 hpc).1; omega
      refine ⟨fun _ => ?_, fun hpc => ?_, fun hpc => ?_, fun hpc => ?_⟩
      · exact taskEventsOnly_append_task (ih.1 hpcw) (Or.inl rfl)
      · rw [hpcw] at hpc; exact nomatch hpc
      · rw [hpcw] at hpc; exact nomatch hpc
      · rw [hpcw] at hpc; exact nomatch hpc
    | exit h1 =>
      have hpcw : s.pc = SupPc.waitBarrier := by
        by_contra hne
        cases hpc : s.pc with
        | waitBarrier => exact hne hpc
        | closeErrs => have := (ih.2.1 hpc).2; omega
        | closeLines => have := (ih.2.2.1 hpc).1; omega
        | donePc => have := (ih.2.2.2 hpc).1; omega
      refine ⟨fun _ => ?_, fun hpc => ?_, fun hpc => ?_, fun hpc => ?_⟩
      · exact taskEventsOnly_append_task (ih.1 hpcw) (Or.inr rfl)
      · rw [hpcw] at hpc; exact nomatch hpc
      · rw [hpcw] at hpc; exact nomatch hpc
      · rw [hpcw] at hpc; exact nomatch hpc
    | barrier h1 hpc0 =>
      refine ⟨?_, ?_, ?_, ?_⟩
      · intro hpc
        simp at hpc
      · intro _
        exact ⟨ih.1 hpc0, h1⟩
      · intro hpc
        simp at hpc
      · intro hpc
        simp at hpc
    | closeE hpc0 =>
      obtain ⟨hte, ht0⟩ := ih.2.1 hpc0
      refine ⟨?_, ?_, ?_, ?_⟩
      · intro hpc
        simp at hpc
      · intro hpc
        simp at hpc
      · intro _
        exact ⟨ht0, s.trace, rfl, hte⟩
      · intro hpc
        simp at hpc
    | closeL hpc0 =>
      obtain ⟨ht0, t0, htr, hte⟩ := ih.2.2.1 hpc0
      refine ⟨?_, ?_, ?_, ?_⟩
      · intro hpc
        simp at hpc
      · intro hpc
        simp at hpc
      · intro hpc
        simp at hpc
      · intro _
        refine ⟨ht0, t0, ?_, hte⟩
        rw [htr, List.append_assoc]
        rfl

/-- C4: in every reachable terminated execution of a handle, the trace
decomposes as task spawn/exit events followed by exactly one
errors-channel close and then exactly one lines-channel close; no task
exit (or spawn) follows either close, every counted task has exited
before the closes (counter zero), and each channel is closed exactly
once, errors before lines. -/
theorem channels_closed_once_in_order {s : SupSt} (h : SupReach s)
    (hpc : s.pc = SupPc.donePc) :
    s.tasks = 0 ∧
      s.trace.count SupEv.closeErrors = 1 ∧
      s.trace.count SupEv.closeLines = 1 ∧
      ∃ t0, s.trace = t0 ++ [SupEv.closeErrors, SupEv.closeLines] ∧
        taskEventsOnly t0 := by
  obtain ⟨ht0, t0, htr, hte⟩ := (supReach_inv h).2.2.2 hpc
  have hce : t0.count SupEv.closeErrors = 0 := by
    rw [List.count_eq_zero]
    intro hmem
    rcases hte _ hmem with h1 | h1 <;> cases h1
  have hcl : t0.count SupEv.closeLines = 0 := by
    rw [List.count_eq_zero]
    intro hmem
    rcases hte _ hmem with h1 | h1 <;> cases h1
  refine ⟨ht0, ?_, ?_, t0, htr, hte⟩
  · rw [htr, List.count_append, hce]
    rfl
  · rw [htr, List.count_append, hcl]
    rfl

/-- Witness for C4: a concrete terminated execution — the single
initial task exits, the barrier opens, the errors channel closes, then
the lines channel closes. -/
theorem channels_closed_once_in_order_witness :
    (⟨0, SupPc.donePc,
        [SupEv.exit, SupEv.closeErrors, SupEv.closeLines]⟩ : SupSt).tasks = 0 ∧
      ([SupEv.exit, SupEv.closeErrors,
          SupEv.closeLines].count SupEv.closeErrors) = 1 ∧
      ([SupEv.exit, SupEv.closeErrors,
          SupEv.closeLines].count SupEv.closeLines) = 1 ∧
      ∃ t0, [SupEv.exit, SupEv.closeErrors, SupEv.closeLines]
            = t0 ++ [SupEv.closeErrors, SupEv.closeLines] ∧
          taskEventsOnly t0 :=
  channels_closed_once_in_order
    (SupReach.step
      (SupReach.step
        (SupReach.step
          (SupReach.step SupReach.start (SupStep.exit _ (by decide)))
          (SupStep.barrier _ (by decide) rfl))
        (SupStep.closeE _ rfl))
      (SupStep.closeL _ rfl))
    rfl

/-! ### `Tail.Close` -/

/-- The two operations `Tail.Close` performs, in order. -/
inductive CloseAct where
  | cancelRoot
  | waitBarrier
  deriving DecidableEq, Repr

/-- Consumer-visible state of a `Tail` handle that could conceivably
influence `Close`: whether the root token is already cancelled and
whether some follower already surfaced a fatal error. -/
structure HandleSt where
  cancelled : Bool
  fatalErrored : Bool
  deriving DecidableEq, Repr

/-- `Tail.Close`: cancels the root token, waits on the barrier, and
returns `nil` — unconditionally. -/
def closeHandle (s : HandleSt) :
    List CloseAct × HandleSt × Option IOErr :=
  ([CloseAct.cancelRoot, CloseAct.waitBarrier],
    { s with cancelled := true }, none)

/-- C9: `Tail.Close` returns `nil` from every handle state — including
one where a follower suffered a fatal error — and on a repeated call;
it always cancels the root token and waits for the task barrier. -/
theorem close_always_returns_nil (s : HandleSt) :
    (closeHandle s).2.2 = none ∧
      (closeHandle (closeHandle s).2.1).2.2 = none ∧
      (closeHandle s).1 = [CloseAct.cancelRoot, CloseAct.waitBarrier] ∧
      (closeHandle s).2.1.cancelled = true :=
  ⟨rfl, rfl, rfl, rfl⟩

end GoTail
